import Mathlib

/-!
Shallow embedding of the collaborative drawing server (the Node backend in
this repository) and proofs about its stroke-log persistence, undo
algorithm, room/name sanitization, snapshot handling and event routing.

Conventions of the embedding:
* JavaScript arrays of points become `List Point`; object fields become
  structure fields.  Coordinates are never computed with, only stored and
  compared, so they are embedded as integers.
* The flat-file persistence is a map from file path to typed content;
  a missing log file and an empty log are indistinguishable to the code
  (`loadStrokes` returns `[]` for both), so log files are stored as plain
  lists.
* The document-store backend keeps one document per `strokeId`; documents
  are kept in creation order, which models the `createdAt` ascending sort
  under the assumption that `Date.now()` is strictly increasing between
  document creations.  The server-assigned `order` field on points is
  written but never read by the code, so it is represented implicitly by
  list position.
-/

/-- One drawing sample, as carried by `draw` events and persisted in the
per-room log.  `ptype` embeds the JavaScript `type` field (`"start"` or
`"draw"`). -/
structure Point where
  x : Int
  y : Int
  ptype : String
  color : String
  width : Int
  strokeId : String
deriving DecidableEq

/-- Helper for `removeLastStroke`: operates on the reversed log, dropping
points until the first `type = "start"` point has been dropped (this is the
backward scan of the JavaScript `for` loop in `removeLastStroke`). -/
def undoRev : List Point → List Point
  | [] => []
  | p :: rest => if p.ptype = "start" then rest else undoRev rest

/-- The pure core of `removeLastStroke` (src/unnamed/part_000 lines 90-102):
scan from the end for the most recent `start` point, drop it and everything
after it; if there is none, the result is empty. -/
def removeLastStrokePure (l : List Point) : List Point :=
  (undoRev l.reverse).reverse

/-! ### Core lemmas about the undo scan -/

theorem undoRev_append_of_no_start (m k : List Point)
    (h : ∀ q ∈ m, q.ptype ≠ "start") : undoRev (m ++ k) = undoRev k := by
  induction m with
  | nil => rfl
  | cons q m ih =>
      have hq : q.ptype ≠ "start" := h q (List.mem_cons_self q m)
      simp only [List.cons_append, undoRev, if_neg hq]
      exact ih fun r hr => h r (List.mem_cons_of_mem q hr)

theorem undoRev_eq_nil_of_no_start (m : List Point)
    (h : ∀ q ∈ m, q.ptype ≠ "start") : undoRev m = [] := by
  have := undoRev_append_of_no_start m [] h
  simpa using this

theorem removeLastStrokePure_spec (l₁ : List Point) (p : Point)
    (l₂ : List Point) (hp : p.ptype = "start")
    (h₂ : ∀ q ∈ l₂, q.ptype ≠ "start") :
    removeLastStrokePure (l₁ ++ p :: l₂) = l₁ := by
  unfold removeLastStrokePure
  have hrev : (l₁ ++ p :: l₂).reverse = l₂.reverse ++ p :: l₁.reverse := by
    simp [List.reverse_append]
  rw [hrev, undoRev_append_of_no_start _ _ (by
    intro q hq
    exact h₂ q (List.mem_reverse.mp hq))]
  simp [undoRev, hp]

theorem removeLastStrokePure_of_no_start (l : List Point)
    (h : ∀ q ∈ l, q.ptype ≠ "start") : removeLastStrokePure l = [] := by
  unfold removeLastStrokePure
  rw [undoRev_eq_nil_of_no_start]
  · rfl
  · intro q hq
    exact h q (List.mem_reverse.mp hq)

theorem undoRev_suffix (m : List Point) : undoRev m <:+ m := by
  induction m with
  | nil => exact List.suffix_refl []
  | cons p rest ih =>
      by_cases hp : p.ptype = "start"
      · simpa [undoRev, hp] using List.suffix_cons p rest
      · simp only [undoRev, if_neg hp]
        exact ih.trans (List.suffix_cons p rest)

theorem removeLastStrokePure_prefix (l : List Point) :
    removeLastStrokePure l <+: l := by
  have h := undoRev_suffix l.reverse
  have h2 : (undoRev l.reverse).reverse <+: l.reverse.reverse :=
    List.reverse_prefix.mpr h
  simpa using h2

/-! ### Room and snapshot-name sanitization -/

/-- The characters removed by JavaScript `String.prototype.trim`
(whitespace and line terminators). -/
def wsChars : List Char :=
  [' ', '\t', '\n', '\r', '\x0b', '\x0c', '\u00A0', '\u1680',
   '\u2000', '\u2001', '\u2002', '\u2003', '\u2004', '\u2005', '\u2006',
   '\u2007', '\u2008', '\u2009', '\u200A', '\u2028', '\u2029', '\u202F',
   '\u205F', '\u3000', '\uFEFF']

def isJsWS (c : Char) : Bool := decide (c ∈ wsChars)

/-- The character class of the room pattern and of the snapshot filename
replacement: letters, digits, underscore, hyphen. -/
def isRoomChar (c : Char) : Bool :=
  ('a' ≤ c && c ≤ 'z') || ('A' ≤ c && c ≤ 'Z') || ('0' ≤ c && c ≤ '9') ||
    c = '_' || c = '-'

def trimList (l : List Char) : List Char :=
  ((l.dropWhile isJsWS).reverse.dropWhile isJsWS).reverse

/-- JavaScript `String.prototype.trim`. -/
def jsTrim (s : String) : String := ⟨trimList s.data⟩

/-- The regular expression test of `sanitizeRoom`: one to sixty-four
letters, digits, underscores or hyphens. -/
def roomTest (v : String) : Bool :=
  1 ≤ v.data.length && v.data.length ≤ 64 && v.data.all isRoomChar

/-- `sanitizeRoom` (src/unnamed/part_000 lines 243-248). -/
def sanitizeRoom (s : String) : String :=
  let v := jsTrim s
  if v = "" then "lobby" else if roomTest v then v else "lobby"

/-- The character class kept by `sanitizeName`: letters, digits, space,
underscore, hyphen. -/
def isNameChar (c : Char) : Bool := isRoomChar c || c = ' '

/-- `sanitizeName` (src/unnamed/part_000 lines 250-255).  `nowIso` stands
for `new Date().toISOString()` at call time. -/
def sanitizeName (nowIso : String) (s : String) : String :=
  let v := jsTrim s
  if v = "" then nowIso
  else ⟨(v.data.map fun c => if isNameChar c then c else '_').take 100⟩

/-! ### Sanitization lemmas -/

theorem roomChar_not_ws (c : Char) (h : isRoomChar c = true) :
    isJsWS c = false := by
  by_contra hw
  have hw2 : isJsWS c = true := by
    cases hmode : isJsWS c
    · exact absurd hmode hw
    · rfl
  have hmem : c ∈ wsChars := of_decide_eq_true hw2
  have hall : ∀ x ∈ wsChars, isRoomChar x = false := by decide
  rw [hall c hmem] at h
  exact Bool.false_ne_true h

theorem dropWhile_ws_eq_self (l : List Char)
    (h : ∀ c ∈ l, isRoomChar c = true) : l.dropWhile isJsWS = l := by
  cases l with
  | nil => rfl
  | cons a t =>
      have ha := roomChar_not_ws a (h a (List.mem_cons_self a t))
      simp [List.dropWhile_cons, ha]

theorem trimList_eq_self (l : List Char)
    (h : ∀ c ∈ l, isRoomChar c = true) : trimList l = l := by
  unfold trimList
  rw [dropWhile_ws_eq_self l h, dropWhile_ws_eq_self l.reverse (by
    intro c hc
    exact h c (List.mem_reverse.mp hc))]
  simp

theorem jsTrim_of_roomTest (v : String) (h : roomTest v = true) :
    jsTrim v = v := by
  unfold roomTest at h
  have hall : v.data.all isRoomChar = true := by
    simp only [Bool.and_eq_true] at h
    exact h.2
  have hmem : ∀ c ∈ v.data, isRoomChar c = true := by
    intro c hc
    exact List.all_eq_true.mp hall c hc
  show (⟨trimList v.data⟩ : String) = v
  rw [trimList_eq_self v.data hmem]

theorem sanitizeRoom_valid (s : String) : roomTest (sanitizeRoom s) = true := by
  unfold sanitizeRoom
  by_cases h0 : jsTrim s = ""
  · simp only [h0, if_pos rfl]
    decide
  · simp only [if_neg h0]
    by_cases h1 : roomTest (jsTrim s)
    · simpa [h1] using h1
    · simp only [if_neg h1]
      decide

theorem sanitizeRoom_of_valid (s : String) (h : roomTest s = true) :
    sanitizeRoom s = s := by
  unfold sanitizeRoom
  rw [jsTrim_of_roomTest s h]
  have hne : s ≠ "" := by
    intro he
    rw [he] at h
    exact absurd h (by decide)
  simp [hne, h]

theorem sanitizeRoom_idem (s : String) :
    sanitizeRoom (sanitizeRoom s) = sanitizeRoom s :=
  sanitizeRoom_of_valid (sanitizeRoom s) (sanitizeRoom_valid s)

/-- C6: room sanitization is total and idempotent — it trims, maps empty or
pattern-failing inputs to "lobby", returns valid inputs unchanged, applying
it twice equals applying it once, and every output satisfies the room
pattern (of which "lobby" is an instance). -/
theorem sanitizeRoom_total_idempotent (s : String) :
    sanitizeRoom (sanitizeRoom s) = sanitizeRoom s ∧
    roomTest (sanitizeRoom s) = true ∧
    (jsTrim s = "" → sanitizeRoom s = "lobby") ∧
    (roomTest (jsTrim s) = false → sanitizeRoom s = "lobby") ∧
    (roomTest s = true → sanitizeRoom s = s) := by
  refine ⟨sanitizeRoom_idem s, sanitizeRoom_valid s, ?_, ?_, sanitizeRoom_of_valid s⟩
  · intro h0
    unfold sanitizeRoom
    simp [h0]
  · intro h1
    unfold sanitizeRoom
    by_cases h0 : jsTrim s = ""
    · simp [h0]
    · simp [h0, h1]

theorem sanitizeRoom_total_idempotent_witness :
    sanitizeRoom (sanitizeRoom "../etc") = sanitizeRoom "../etc" ∧
    roomTest (sanitizeRoom "../etc") = true ∧
    sanitizeRoom "a b" = "lobby" ∧
    sanitizeRoom "abc" = "abc" :=
  ⟨(sanitizeRoom_total_idempotent "../etc").1,
   (sanitizeRoom_total_idempotent "../etc").2.1,
   (sanitizeRoom_total_idempotent "a b").2.2.2.1 (by decide),
   (sanitizeRoom_total_idempotent "abc").2.2.2.2 (by decide)⟩

/-! ### File-backed persistence -/

def dataDir : String := "data"

def snapshotsDir : String := "snapshots"

/-- `fileForRoom` (src/unnamed/part_000 lines 60-62). -/
def fileForRoom (room : String) : String := dataDir ++ "/" ++ room ++ ".json"

/-- The replacement performed inside `snapshotFile`: every character
outside letters, digits, underscore, hyphen becomes an underscore. -/
def safeName (name : String) : String :=
  ⟨name.data.map fun c => if isRoomChar c then c else '_'⟩

/-- `snapshotFile` (src/unnamed/part_000 lines 108-111). -/
def snapshotFile (room name : String) : String :=
  snapshotsDir ++ "/" ++ room ++ "__" ++ safeName name ++ ".json"

/-- The JSON object written by `saveSnapshotFile`. -/
structure SnapDoc where
  room : String
  name : String
  data : List Point
  createdAt : Nat
deriving DecidableEq

/-- The server's file system, split by directory: the per-room log files
under `data/` (a missing file reads as the empty list) and the snapshot
files under `snapshots/`, each keyed by full path. -/
structure ServerFiles where
  logs : String → List Point
  snaps : String → Option SnapDoc

/-- `loadStrokes` (src/unnamed/part_000 lines 64-74) on the typed store. -/
def loadStrokesS (st : ServerFiles) (room : String) : List Point :=
  st.logs (fileForRoom room)

/-- `saveStrokes` (src/unnamed/part_000 lines 76-82). -/
def saveStrokesS (st : ServerFiles) (room : String) (l : List Point) :
    ServerFiles :=
  { st with logs := fun p => if p = fileForRoom room then l else st.logs p }

/-- `appendStroke` (src/unnamed/part_000 lines 84-88). -/
def appendStrokeS (st : ServerFiles) (room : String) (pt : Point) :
    ServerFiles :=
  saveStrokesS st room (loadStrokesS st room ++ [pt])

/-- `removeLastStroke` (src/unnamed/part_000 lines 90-102): persists and
returns the truncated log. -/
def removeLastStrokeS (st : ServerFiles) (room : String) :
    ServerFiles × List Point :=
  let r := removeLastStrokePure (loadStrokesS st room)
  (saveStrokesS st room r, r)

/-- `saveSnapshotFile` (src/unnamed/part_000 lines 113-118).  `nowMs` and
`nowIso` stand for `Date.now()` and `new Date().toISOString()`. -/
def saveSnapshotS (nowMs : Nat) (nowIso : String) (st : ServerFiles)
    (room name : String) : ServerFiles :=
  let d := loadStrokesS st room
  let effName := if name = "" then nowIso else name
  let f := snapshotFile room effName
  { st with snaps := fun p => if p = f then some ⟨room, name, d, nowMs⟩ else st.snaps p }

/-- `loadSnapshotFile` (src/unnamed/part_000 lines 128-133). -/
def loadSnapshotS (st : ServerFiles) (room name : String) :
    Option (List Point) :=
  (st.snaps (snapshotFile room name)).map fun doc => doc.data

/-- The mutations the event handlers can apply to a room's live log. -/
inductive LogOp where
  | append (room : String) (pt : Point)
  | clear (room : String)
  | undo (room : String)
  | replaceAll (room : String) (l : List Point)
deriving DecidableEq

def applyLogOp (st : ServerFiles) : LogOp → ServerFiles
  | .append room pt => appendStrokeS st room pt
  | .clear room => saveStrokesS st room []
  | .undo room => (removeLastStrokeS st room).1
  | .replaceAll room l => saveStrokesS st room l

def applyLogOps (st : ServerFiles) (ops : List LogOp) : ServerFiles :=
  ops.foldl applyLogOp st

theorem loadStrokesS_saveStrokesS (st : ServerFiles) (room : String)
    (l : List Point) : loadStrokesS (saveStrokesS st room l) room = l := by
  simp [loadStrokesS, saveStrokesS]

theorem applyLogOp_snaps (st : ServerFiles) (op : LogOp) :
    (applyLogOp st op).snaps = st.snaps := by
  cases op <;> rfl

theorem applyLogOps_snaps (ops : List LogOp) (st : ServerFiles) :
    (applyLogOps st ops).snaps = st.snaps := by
  induction ops generalizing st with
  | nil => rfl
  | cons op ops ih =>
      show (applyLogOps (applyLogOp st op) ops).snaps = st.snaps
      rw [ih, applyLogOp_snaps]

/-! ### Undo: functional specification and prefix property -/

/-- C1: undo scans the room log from the end backward for the most recent
`start` point, removes that point and everything after it, persists and
returns the result; if the log holds no `start` point it empties the log
and returns the empty sequence. -/
theorem undo_scan_spec (st : ServerFiles) (room : String) (l₁ : List Point)
    (p : Point) (l₂ : List Point) :
    (loadStrokesS st room = l₁ ++ p :: l₂ → p.ptype = "start" →
      (∀ q ∈ l₂, q.ptype ≠ "start") →
      (removeLastStrokeS st room).2 = l₁ ∧
        loadStrokesS (removeLastStrokeS st room).1 room = l₁) ∧
    ((∀ q ∈ loadStrokesS st room, q.ptype ≠ "start") →
      (removeLastStrokeS st room).2 = [] ∧
        loadStrokesS (removeLastStrokeS st room).1 room = []) := by
  constructor
  · intro hl hp h₂
    have hres : removeLastStrokePure (loadStrokesS st room) = l₁ := by
      rw [hl]
      exact removeLastStrokePure_spec l₁ p l₂ hp h₂
    refine ⟨hres, ?_⟩
    show loadStrokesS (saveStrokesS st room _) room = l₁
    rw [loadStrokesS_saveStrokesS, hres]
  · intro h
    have hres : removeLastStrokePure (loadStrokesS st room) = [] :=
      removeLastStrokePure_of_no_start _ h
    refine ⟨hres, ?_⟩
    show loadStrokesS (saveStrokesS st room _) room = []
    rw [loadStrokesS_saveStrokesS, hres]

/-- A concrete `start` point used by witnesses. -/
def ptStart : Point := ⟨0, 0, "start", "#000000", 5, "s1"⟩

/-- A concrete `draw` point used by witnesses. -/
def ptDraw : Point := ⟨5, 5, "draw", "#000000", 5, "s1"⟩

/-- A concrete server state whose room `"r"` holds a single stroke. -/
def stEx : ServerFiles :=
  ⟨fun p => if p = fileForRoom "r" then [ptStart, ptDraw] else [], fun _ => none⟩

theorem undo_scan_spec_witness :
    loadStrokesS stEx "r" = [] ++ ptStart :: [ptDraw] ∧
    ptStart.ptype = "start" ∧
    (removeLastStrokeS stEx "r").2 = [] ∧
    loadStrokesS (removeLastStrokeS stEx "r").1 "r" = [] := by
  have h := (undo_scan_spec stEx "r" [] ptStart [ptDraw]).1 (by
    show loadStrokesS stEx "r" = _
    simp [loadStrokesS, stEx]) (by decide) (by
    intro q hq
    simp only [List.mem_singleton] at hq
    rw [hq]
    decide)
  refine ⟨by simp [loadStrokesS, stEx], by decide, h.1, h.2⟩

/-- C9: the sequence returned and persisted by the file-backend undo is a
prefix of the previous log; undo of an empty log returns the empty
sequence and leaves the log empty. -/
theorem undo_result_prefix_of_log (st : ServerFiles) (room : String) :
    (removeLastStrokeS st room).2 <+: loadStrokesS st room ∧
    loadStrokesS (removeLastStrokeS st room).1 room =
      (removeLastStrokeS st room).2 ∧
    (loadStrokesS st room = [] → (removeLastStrokeS st room).2 = []) := by
  refine ⟨?_, ?_, ?_⟩
  · show removeLastStrokePure (loadStrokesS st room) <+: loadStrokesS st room
    exact removeLastStrokePure_prefix _
  · show loadStrokesS (saveStrokesS st room _) room = _
    rw [loadStrokesS_saveStrokesS]
    rfl
  · intro h
    show removeLastStrokePure (loadStrokesS st room) = []
    rw [h]
    rfl

/-- A concrete server state with an empty room log. -/
def stEmpty : ServerFiles := ⟨fun _ => [], fun _ => none⟩

theorem undo_result_prefix_of_log_witness :
    (removeLastStrokeS stEmpty "r").2 = [] ∧
    (removeLastStrokeS stEx "r").2 <+: loadStrokesS stEx "r" :=
  ⟨(undo_result_prefix_of_log stEmpty "r").2.2 rfl, (undo_result_prefix_of_log stEx "r").1⟩

/-! ### Snapshot round trip -/

/-- C3 (amended): saving a snapshot under a nonempty name and loading it
back returns exactly the point sequence current at save time, whatever
append, clear, undo or replaceAll operations hit the live logs in
between — log operations never touch the snapshot files. -/
theorem snapshot_round_trip (st : ServerFiles) (nowMs : Nat)
    (nowIso room name : String) (ops : List LogOp) (h : name ≠ "") :
    loadSnapshotS (applyLogOps (saveSnapshotS nowMs nowIso st room name) ops)
      room name = some (loadStrokesS st room) := by
  unfold loadSnapshotS
  rw [applyLogOps_snaps]
  show (if snapshotFile room name =
      snapshotFile room (if name = "" then nowIso else name) then
        some (⟨room, name, loadStrokesS st room, nowMs⟩ : SnapDoc)
      else st.snaps (snapshotFile room name)).map _ = _
  rw [if_neg h]
  simp

theorem snapshot_round_trip_witness :
    ("n" : String) ≠ "" ∧
    loadSnapshotS
      (applyLogOps (saveSnapshotS 5 "2026-01-01T00:00:00.000Z" stEx "r" "n")
        [LogOp.clear "r", LogOp.append "r" ptDraw, LogOp.undo "r"])
      "r" "n" = some [ptStart, ptDraw] :=
  ⟨by decide, by
    have h := snapshot_round_trip stEx 5 "2026-01-01T00:00:00.000Z" "r" "n"
      [LogOp.clear "r", LogOp.append "r" ptDraw, LogOp.undo "r"] (by decide)
    simpa [loadStrokesS, stEx] using h⟩

/-- C3 counterexample to the unrestricted claim: with the empty name, the
save writes the snapshot under a timestamp-derived file name, so loading
back under the same (empty) name finds nothing, not the saved sequence. -/
theorem snapshot_round_trip_cex :
    loadSnapshotS (saveSnapshotS 5 "2026-01-01T00:00:00.000Z" stEx "r" "")
      "r" "" = none ∧
    loadStrokesS stEx "r" = [ptStart, ptDraw] := by
  decide

/-! ### File naming scheme -/

/-- A path is confined to `dir` when it is `dir/base` for a nonempty base
file name free of path separators and of the `..` traversal pattern. -/
def Confined (dir p : String) : Prop :=
  ∃ base, p = dir ++ "/" ++ base ∧ base ≠ "" ∧
    (∀ c ∈ base.data, c ≠ '/' ∧ c ≠ '\\') ∧
    ¬ List.IsInfix ['.', '.'] base.data

theorem string_affix_cancel (pre suf a b : String)
    (h : pre ++ a ++ suf = pre ++ b ++ suf) : a = b := by
  apply String.ext
  have hd := congrArg String.data h
  simp only [String.data_append, List.append_assoc] at hd
  have h1 := List.append_cancel_left hd
  exact List.append_cancel_right h1

theorem roomChar_ne_bad (c : Char) (h : isRoomChar c = true) :
    c ≠ '/' ∧ c ≠ '\\' ∧ c ≠ '.' := by
  refine ⟨?_, ?_, ?_⟩ <;> intro he <;> rw [he] at h <;> exact absurd h (by decide)

theorem safeName_chars (n : String) :
    ∀ c ∈ (safeName n).data, isRoomChar c = true := by
  intro c hc
  have hc2 : c ∈ n.data.map fun x => if isRoomChar x then x else '_' := hc
  obtain ⟨x, _, hx⟩ := List.mem_map.mp hc2
  by_cases hr : isRoomChar x
  · rw [if_pos hr] at hx
    rw [← hx]
    exact hr
  · rw [if_neg hr] at hx
    rw [← hx]
    decide

theorem sanitizeRoom_chars (s : String) :
    ∀ c ∈ (sanitizeRoom s).data, isRoomChar c = true := by
  have h := sanitizeRoom_valid s
  unfold roomTest at h
  simp only [Bool.and_eq_true] at h
  exact fun c hc => List.all_eq_true.mp h.2 c hc

theorem count_dot_zero (l : List Char) (h : ∀ c ∈ l, isRoomChar c = true) :
    l.count '.' = 0 :=
  List.count_eq_zero.mpr fun hmem => absurd (h '.' hmem) (by decide)

theorem confined_of_chars (dir base : String) (hne : base.data ≠ [])
    (hchars : ∀ c ∈ base.data, c ≠ '/' ∧ c ≠ '\\')
    (hcount : base.data.count '.' ≤ 1) :
    Confined dir (dir ++ "/" ++ base) := by
  refine ⟨base, rfl, ?_, hchars, ?_⟩
  · intro he
    rw [he] at hne
    exact hne rfl
  · intro hinf
    have hle := hinf.sublist.count_le '.'
    have h2 : (['.', '.'] : List Char).count '.' = 2 := by decide
    rw [h2] at hle
    omega

/-- C7 (amended): the log-file naming is injective in the room; for a fixed
room, snapshot names with distinct sanitized forms give distinct snapshot
files; and for arbitrary user-supplied room and name inputs, both paths are
confined to their directories.  (Across distinct rooms, two (room, name)
pairs can collide — see the counterexample.) -/
theorem file_naming_scheme (r₁ r₂ room n₁ n₂ rraw nraw : String) :
    (fileForRoom r₁ = fileForRoom r₂ → r₁ = r₂) ∧
    (safeName n₁ ≠ safeName n₂ →
      snapshotFile room n₁ ≠ snapshotFile room n₂) ∧
    Confined dataDir (fileForRoom (sanitizeRoom rraw)) ∧
    Confined snapshotsDir (snapshotFile (sanitizeRoom rraw) nraw) := by
  refine ⟨?_, ?_, ?_, ?_⟩
  · intro h
    exact string_affix_cancel (dataDir ++ "/") ".json" r₁ r₂ h
  · intro hne he
    exact hne
      (string_affix_cancel (snapshotsDir ++ "/" ++ room ++ "__") ".json"
        (safeName n₁) (safeName n₂) he)
  · have hpath : fileForRoom (sanitizeRoom rraw) =
        dataDir ++ "/" ++ (sanitizeRoom rraw ++ ".json") := by
      unfold fileForRoom
      rw [String.append_assoc]
    rw [hpath]
    apply confined_of_chars
    · intro he
      rw [String.data_append] at he
      rcases List.append_eq_nil.mp he with ⟨h1, h2⟩
      exact absurd h2 (by decide)
    · intro c hc
      rw [String.data_append] at hc
      rcases List.mem_append.mp hc with hc | hc
      · have h := roomChar_ne_bad c (sanitizeRoom_chars rraw c hc)
        exact ⟨h.1, h.2.1⟩
      · have : ∀ c ∈ (".json" : String).data, c ≠ '/' ∧ c ≠ '\\' := by decide
        exact this c hc
    · rw [String.data_append, List.count_append,
        count_dot_zero _ (sanitizeRoom_chars rraw)]
      have : (".json" : String).data.count '.' = 1 := by decide
      omega
  · have hpath : snapshotFile (sanitizeRoom rraw) nraw =
        snapshotsDir ++ "/" ++
          (sanitizeRoom rraw ++ ("__" ++ (safeName nraw ++ ".json"))) := by
      unfold snapshotFile
      rw [String.append_assoc, String.append_assoc, String.append_assoc]
    rw [hpath]
    apply confined_of_chars
    · intro he
      simp only [String.data_append, List.append_assoc] at he
      rcases List.append_eq_nil.mp he with ⟨h1, h2⟩
      rcases List.append_eq_nil.mp h2 with ⟨h3, h4⟩
      rcases List.append_eq_nil.mp h4 with ⟨h5, h6⟩
      exact absurd h6 (by decide)
    · intro c hc
      simp only [String.data_append, List.append_assoc] at hc
      rcases List.mem_append.mp hc with hc | hc
      · have h := roomChar_ne_bad c (sanitizeRoom_chars rraw c hc)
        exact ⟨h.1, h.2.1⟩
      rcases List.mem_append.mp hc with hc | hc
      · have : ∀ c ∈ ("__" : String).data, c ≠ '/' ∧ c ≠ '\\' := by decide
        exact this c hc
      rcases List.mem_append.mp hc with hc | hc
      · have h := roomChar_ne_bad c (safeName_chars nraw c hc)
        exact ⟨h.1, h.2.1⟩
      · have : ∀ c ∈ (".json" : String).data, c ≠ '/' ∧ c ≠ '\\' := by decide
        exact this c hc
    · simp only [String.data_append, List.append_assoc, List.count_append]
      rw [count_dot_zero _ (sanitizeRoom_chars rraw),
        count_dot_zero _ (safeName_chars nraw)]
      decide

theorem file_naming_scheme_witness :
    ("a" : String) = "a" ∧
    snapshotFile "lobby" "x" ≠ snapshotFile "lobby" "y" ∧
    Confined dataDir (fileForRoom (sanitizeRoom "../etc")) ∧
    Confined snapshotsDir (snapshotFile (sanitizeRoom "../etc") "../../х") :=
  ⟨(file_naming_scheme "a" "a" "lobby" "x" "y" "../etc" "../../х").1 rfl,
   (file_naming_scheme "a" "a" "lobby" "x" "y" "../etc" "../../х").2.1
     (by decide),
   (file_naming_scheme "a" "a" "lobby" "x" "y" "../etc" "../../х").2.2.1,
   (file_naming_scheme "a" "a" "lobby" "x" "y" "../etc" "../../х").2.2.2⟩

/-- C7 counterexample to the unrestricted claim: the two distinct pairs
("a_", "b") and ("a", "_b") — both components already in sanitized form —
map to the same snapshot file. -/
theorem file_naming_scheme_cex :
    snapshotFile "a_" "b" = snapshotFile "a" "_b" ∧
    ¬(("a_" : String) = "a" ∧ ("b" : String) = "_b") ∧
    sanitizeRoom "a_" = "a_" ∧ sanitizeRoom "a" = "a" ∧
    safeName "b" = "b" ∧ safeName "_b" = "_b" := by
  decide

/-! ### Room event router (file-backend configuration) -/

/-- The recipient scope of a server emit: `sock` is a unicast to one
connection (`socket.emit`), `roomAll` is `io.to(room).emit` (every member
of the room, sender included), `roomOthers` is `socket.to(room).emit`
(every member except the sender). -/
inductive EmitTarget where
  | sock (sid : Nat)
  | roomAll (room : String)
  | roomOthers (room : String) (sender : Nat)
deriving DecidableEq

/-- Event payloads that matter to the persistence protocol. -/
inductive Payload where
  | points (l : List Point)
  | single (p : Point)
  | noData
deriving DecidableEq

structure EmitMsg where
  target : EmitTarget
  event : String
  payload : Payload
deriving DecidableEq

/-- Whether connection `r` receives a message with the given target, with
room membership given by `members`. -/
def deliversTo (members : String → List Nat) : EmitTarget → Nat → Bool
  | .sock s, r => decide (r = s)
  | .roomAll room, r => decide (r ∈ members room)
  | .roomOthers room s, r => decide (r ∈ members room) && decide (r ≠ s)

/-- The connection handler's history emit (src/unnamed/part_000 lines
295-304): the raw room from the handshake query is sanitized, and the
room's persisted history is sent to the joining socket alone. -/
def handleConnect (st : ServerFiles) (sid : Nat) (rawRoom : String) :
    List EmitMsg :=
  [⟨.sock sid, "history", .points (loadStrokesS st (sanitizeRoom rawRoom))⟩]

/-- The `draw` handler (src/unnamed/part_000 lines 307-317), file-backend
branch: re-emit to the others in the room, append to the room log. -/
def handleDraw (st : ServerFiles) (sid : Nat) (room : String) (pt : Point) :
    ServerFiles × List EmitMsg :=
  (appendStrokeS st room pt, [⟨.roomOthers room sid, "draw", .single pt⟩])

/-- The `undo` handler (src/unnamed/part_000 lines 327-332), file-backend
branch: truncate the log and emit the new history to the whole room. -/
def handleUndo (st : ServerFiles) (room : String) :
    ServerFiles × List EmitMsg :=
  let r := removeLastStrokeS st room
  (r.1, [⟨.roomAll room, "resetWithHistory", .points r.2⟩])

/-- A JSON value arriving as the `applySnapshot` payload; only `arr`
passes the `Array.isArray` test. -/
inductive JVal where
  | arr (l : List Point)
  | str (s : String)
  | num (n : Int)
  | nullv
  | objv
deriving DecidableEq

/-- The `applySnapshot` handler (src/unnamed/part_000 lines 335-348),
file-backend branch: non-array payloads are dropped before any store
mutation or emit; array payloads replace the room log and reset the whole
room. -/
def handleApplySnapshot (st : ServerFiles) (room : String) (payload : JVal) :
    ServerFiles × List EmitMsg :=
  match payload with
  | .arr l => (saveStrokesS st room l,
      [⟨.roomAll room, "resetWithHistory", .points l⟩])
  | _ => (st, [])

/-- C4: a joining connection receives, unicast to itself only, a history
event holding the room's full persisted sequence; an undo makes every
connection in the room — the sender included — receive resetWithHistory
with the post-undo log, so undoing the only stroke resets everyone to the
empty history. -/
theorem join_history_and_undo_broadcast (st : ServerFiles)
    (members : String → List Nat) (sid r : Nat) (rawRoom room : String)
    (p₁ p₂ : Point) :
    (handleConnect st sid rawRoom =
      [⟨.sock sid, "history", .points (loadStrokesS st (sanitizeRoom rawRoom))⟩]) ∧
    (deliversTo members (.sock sid) r = true ↔ r = sid) ∧
    ((handleUndo st room).2 = [⟨.roomAll room, "resetWithHistory",
      .points (removeLastStrokePure (loadStrokesS st room))⟩]) ∧
    (deliversTo members (.roomAll room) r = true ↔ r ∈ members room) ∧
    (loadStrokesS st room = [] → p₁.ptype = "start" → p₂.ptype ≠ "start" →
      (handleUndo (handleDraw (handleDraw st sid room p₁).1 sid room p₂).1
          room).2 =
        [⟨.roomAll room, "resetWithHistory", .points []⟩]) := by
  refine ⟨rfl, by simp [deliversTo], rfl, by simp [deliversTo], ?_⟩
  intro h0 h₁ h₂
  have hlog : loadStrokesS
      (handleDraw (handleDraw st sid room p₁).1 sid room p₂).1 room =
      [p₁, p₂] := by
    show loadStrokesS (appendStrokeS (appendStrokeS st room p₁) room p₂)
        room = [p₁, p₂]
    unfold appendStrokeS
    rw [loadStrokesS_saveStrokesS, loadStrokesS_saveStrokesS, h0]
    rfl
  have hres : (removeLastStrokeS
      (handleDraw (handleDraw st sid room p₁).1 sid room p₂).1 room).2 =
      [] := by
    show removeLastStrokePure (loadStrokesS _ room) = []
    rw [hlog]
    have := removeLastStrokePure_spec [] p₁ [p₂] h₁ (by
      intro q hq
      simp only [List.mem_singleton] at hq
      rw [hq]
      exact h₂)
    simpa using this
  show [(⟨EmitTarget.roomAll room, "resetWithHistory", Payload.points
      ((removeLastStrokeS
        (handleDraw (handleDraw st sid room p₁).1 sid room p₂).1 room).2)⟩ :
      EmitMsg)] = _
  rw [hres]

theorem join_history_and_undo_broadcast_witness :
    (handleConnect stEx 7 " r ") =
      [⟨.sock 7, "history", .points [ptStart, ptDraw]⟩] ∧
    (deliversTo (fun _ => [7, 9]) (.roomAll "r") 7 = true ↔
      7 ∈ [7, 9]) ∧
    (handleUndo (handleDraw (handleDraw stEmpty 7 "r" ptStart).1 7 "r"
        ptDraw).1 "r").2 =
      [⟨.roomAll "r", "resetWithHistory", .points []⟩] := by
  have h := join_history_and_undo_broadcast stEx (fun _ => [7, 9]) 7 7
    " r " "r" ptStart ptDraw
  have h2 := join_history_and_undo_broadcast stEmpty (fun _ => [7, 9]) 7 7
    " r " "r" ptStart ptDraw
  refine ⟨?_, h.2.2.2.1, h2.2.2.2.2 rfl (by decide) (by decide)⟩
  have h1 := h.1
  rw [h1]
  have : loadStrokesS stEx (sanitizeRoom " r ") = [ptStart, ptDraw] := by
    have hs : sanitizeRoom " r " = "r" := by decide
    rw [hs]
    simp [loadStrokesS, stEx]
  rw [this]

/-- C5: an applySnapshot event with a non-array payload performs no store
mutation and emits nothing; with an array payload it replaces the room's
log with the payload and broadcasts resetWithHistory to the whole room,
sender included. -/
theorem apply_snapshot_validation (st : ServerFiles)
    (members : String → List Nat) (room : String) (payload : JVal) (r : Nat) :
    ((∀ l, payload ≠ .arr l) → handleApplySnapshot st room payload = (st, [])) ∧
    (∀ l, payload = .arr l →
      loadStrokesS (handleApplySnapshot st room payload).1 room = l ∧
      (handleApplySnapshot st room payload).2 =
        [⟨.roomAll room, "resetWithHistory", .points l⟩] ∧
      (deliversTo members (.roomAll room) r = true ↔ r ∈ members room)) := by
  constructor
  · intro h
    cases payload with
    | arr l => exact absurd rfl (h l)
    | str s => rfl
    | num n => rfl
    | nullv => rfl
    | objv => rfl
  · intro l hl
    rw [hl]
    exact ⟨loadStrokesS_saveStrokesS st room l, rfl, by simp [deliversTo]⟩

theorem apply_snapshot_validation_witness :
    handleApplySnapshot stEx "r" (.str "bad") = (stEx, []) ∧
    loadStrokesS (handleApplySnapshot stEx "r" (.arr [ptStart])).1 "r" =
      [ptStart] ∧
    (handleApplySnapshot stEx "r" (.arr [ptStart])).2 =
      [⟨.roomAll "r", "resetWithHistory", .points [ptStart]⟩] :=
  ⟨(apply_snapshot_validation stEx (fun _ => []) "r" (.str "bad") 0).1
      (fun l h => by cases h),
   ((apply_snapshot_validation stEx (fun _ => []) "r" (.arr [ptStart]) 0).2
      [ptStart] rfl).1,
   ((apply_snapshot_validation stEx (fun _ => []) "r" (.arr [ptStart]) 0).2
      [ptStart] rfl).2.1⟩

/-! ### Document-store backend -/

/-- One stroke document: all points pushed under one `strokeId`.  Documents
are kept in creation order (`createdAt` ascending). -/
structure StrokeDoc where
  strokeId : String
  points : List Point
deriving DecidableEq

/-- `mongoAppendPoint` (src/unnamed/part_000 lines 166-172): upsert — push
onto the first document matching the stroke id, or create a new document
(which sorts last by creation time). -/
def mongoAppendPoint : List StrokeDoc → String → Point → List StrokeDoc
  | [], sid, pt => [⟨sid, [pt]⟩]
  | d :: ds, sid, pt =>
      if d.strokeId = sid then ⟨d.strokeId, d.points ++ [pt]⟩ :: ds
      else d :: mongoAppendPoint ds sid pt

/-- `mongoLoadAllPoints` (src/unnamed/part_000 lines 157-164): flatten the
documents in creation order, points in push order. -/
def mongoLoadAllPoints (docs : List StrokeDoc) : List Point :=
  (docs.map StrokeDoc.points).flatten

/-- `mongoUndo`'s state change (src/unnamed/part_000 lines 178-184): delete
the most recently created stroke document, if any. -/
def mongoUndoDocs (docs : List StrokeDoc) : List StrokeDoc := docs.dropLast

/-- The stroke id under which the `draw` handler persists a point in the
document store: `data.strokeId || 'legacy'`. -/
def mongoSid (pt : Point) : String :=
  if pt.strokeId = "" then "legacy" else pt.strokeId

/-- A mutating room event, as applied identically to both backends. -/
inductive DrawOp where
  | append (pt : Point)
  | clear
  | undo
deriving DecidableEq

def fileStep (l : List Point) : DrawOp → List Point
  | .append pt => l ++ [pt]
  | .clear => []
  | .undo => removeLastStrokePure l

def mongoStep (docs : List StrokeDoc) : DrawOp → List StrokeDoc
  | .append pt => mongoAppendPoint docs (mongoSid pt) pt
  | .clear => []
  | .undo => mongoUndoDocs docs

def runFile (l : List Point) (ops : List DrawOp) : List Point :=
  ops.foldl fileStep l

def runMongo (docs : List StrokeDoc) (ops : List DrawOp) : List StrokeDoc :=
  ops.foldl mongoStep docs

/-- Well-formed next event: a `start` point opens a stroke whose id is not
already present; a non-`start` point continues the most recently created
stroke.  This is the no-interleaving assumption under which the two
backends agree. -/
def stepOk (docs : List StrokeDoc) : DrawOp → Bool
  | .append pt =>
      if pt.ptype = "start" then
        docs.all fun d => decide (d.strokeId ≠ mongoSid pt)
      else
        match docs.getLast? with
        | some d => decide (d.strokeId = mongoSid pt)
        | none => false
  | .clear => true
  | .undo => true

def seqOk (docs : List StrokeDoc) : List DrawOp → Bool
  | [] => true
  | op :: ops => stepOk docs op && seqOk (mongoStep docs op) ops

/-- A stroke document as produced by well-formed traffic: nonempty, led by
its `start` point, with no other `start` point. -/
def GoodDoc (d : StrokeDoc) : Prop :=
  ∃ p ps, d.points = p :: ps ∧ p.ptype = "start" ∧ ∀ q ∈ ps, q.ptype ≠ "start"

def MongoInv (docs : List StrokeDoc) : Prop :=
  (∀ d ∈ docs, GoodDoc d) ∧
    docs.Pairwise fun a b => a.strokeId ≠ b.strokeId

theorem mongoAppendPoint_fresh (docs : List StrokeDoc) (sid : String)
    (pt : Point) (h : ∀ d ∈ docs, d.strokeId ≠ sid) :
    mongoAppendPoint docs sid pt = docs ++ [⟨sid, [pt]⟩] := by
  induction docs with
  | nil => rfl
  | cons d ds ih =>
      have hd : d.strokeId ≠ sid := h d (List.mem_cons_self d ds)
      simp only [mongoAppendPoint, if_neg hd, List.cons_append, List.cons.injEq,
        true_and]
      exact ih fun x hx => h x (List.mem_cons_of_mem d hx)

theorem mongoAppendPoint_last (ds : List StrokeDoc) (d : StrokeDoc)
    (sid : String) (pt : Point) (h : ∀ x ∈ ds, x.strokeId ≠ sid)
    (hd : d.strokeId = sid) :
    mongoAppendPoint (ds ++ [d]) sid pt =
      ds ++ [⟨d.strokeId, d.points ++ [pt]⟩] := by
  induction ds with
  | nil => simp [mongoAppendPoint, hd]
  | cons x ds ih =>
      have hx : x.strokeId ≠ sid := h x (List.mem_cons_self x ds)
      simp only [List.cons_append, mongoAppendPoint, if_neg hx,
        List.cons.injEq, true_and]
      exact ih fun y hy => h y (List.mem_cons_of_mem x hy)

theorem mongoLoadAllPoints_append (ds es : List StrokeDoc) :
    mongoLoadAllPoints (ds ++ es) =
      mongoLoadAllPoints ds ++ mongoLoadAllPoints es := by
  simp [mongoLoadAllPoints]

theorem removeLast_flatten (docs : List StrokeDoc)
    (h : ∀ d ∈ docs, GoodDoc d) :
    removeLastStrokePure (mongoLoadAllPoints docs) =
      mongoLoadAllPoints (mongoUndoDocs docs) := by
  rcases List.eq_nil_or_concat docs with rfl | ⟨ds, d, hdocs⟩
  · rfl
  · rw [List.concat_eq_append] at hdocs
    subst hdocs
    obtain ⟨p, ps, hpts, hp, hps⟩ :=
      h d (List.mem_append_right ds (List.mem_singleton.mpr rfl))
    have hflat : mongoLoadAllPoints (ds ++ [d]) =
        mongoLoadAllPoints ds ++ (p :: ps) := by
      rw [mongoLoadAllPoints_append]
      simp [mongoLoadAllPoints, hpts]
    rw [hflat, removeLastStrokePure_spec _ p ps hp hps]
    simp [mongoUndoDocs]

theorem mongo_step_sim (docs : List StrokeDoc) (op : DrawOp)
    (h : MongoInv docs) (hstep : stepOk docs op = true) :
    MongoInv (mongoStep docs op) ∧
      mongoLoadAllPoints (mongoStep docs op) =
        fileStep (mongoLoadAllPoints docs) op := by
  cases op with
  | clear =>
      exact ⟨⟨fun d hd => absurd hd (List.not_mem_nil d), List.Pairwise.nil⟩,
        rfl⟩
  | undo =>
      refine ⟨⟨fun d hd => h.1 d ((List.dropLast_sublist docs).subset hd),
        h.2.sublist (List.dropLast_sublist docs)⟩, ?_⟩
      exact (removeLast_flatten docs h.1).symm
  | append pt =>
      by_cases hty : pt.ptype = "start"
      · have hall : docs.all (fun d => decide (d.strokeId ≠ mongoSid pt)) =
            true := by
          simpa [stepOk, hty] using hstep
        have hfresh : ∀ d ∈ docs, d.strokeId ≠ mongoSid pt := fun d hd =>
          of_decide_eq_true (List.all_eq_true.mp hall d hd)
        have hrw : mongoStep docs (.append pt) =
            docs ++ [⟨mongoSid pt, [pt]⟩] :=
          mongoAppendPoint_fresh docs _ pt hfresh
        rw [hrw]
        refine ⟨⟨?_, ?_⟩, ?_⟩
        · intro d hd
          rcases List.mem_append.mp hd with hd | hd
          · exact h.1 d hd
          · rw [List.mem_singleton.mp hd]
            exact ⟨pt, [], rfl, hty,
              fun q hq => absurd hq (List.not_mem_nil q)⟩
        · refine List.pairwise_append.mpr
            ⟨h.2, List.pairwise_singleton _ _, ?_⟩
          intro a ha b hb
          rw [List.mem_singleton.mp hb]
          exact hfresh a ha
        · simp [mongoLoadAllPoints_append, mongoLoadAllPoints, fileStep]
      · have hstep2 : (match docs.getLast? with
            | some d => decide (d.strokeId = mongoSid pt)
            | none => false) = true := by
          simpa [stepOk, hty] using hstep
        cases hgl : docs.getLast? with
        | none =>
            rw [hgl] at hstep2
            exact Bool.noConfusion hstep2
        | some d =>
            rw [hgl] at hstep2
            have hid : d.strokeId = mongoSid pt := of_decide_eq_true hstep2
            obtain ⟨ds, hsplit⟩ : ∃ ds, docs = ds ++ [d] :=
              ⟨docs.dropLast,
                (List.dropLast_append_getLast? d (Option.mem_def.mpr hgl)).symm⟩
            subst hsplit
            have hpw := List.pairwise_append.mp h.2
            have hfresh : ∀ x ∈ ds, x.strokeId ≠ mongoSid pt := by
              intro x hx
              rw [← hid]
              exact hpw.2.2 x hx d (List.mem_singleton.mpr rfl)
            have hgood : GoodDoc d :=
              h.1 d (List.mem_append_right ds (List.mem_singleton.mpr rfl))
            obtain ⟨p, ps, hpts, hp, hps⟩ := hgood
            have hrw : mongoStep (ds ++ [d]) (.append pt) =
                ds ++ [⟨d.strokeId, d.points ++ [pt]⟩] :=
              mongoAppendPoint_last ds d _ pt hfresh hid
            rw [hrw]
            refine ⟨⟨?_, ?_⟩, ?_⟩
            · intro x hx
              rcases List.mem_append.mp hx with hx | hx
              · exact h.1 x (List.mem_append_left [d] hx)
              · rw [List.mem_singleton.mp hx]
                refine ⟨p, ps ++ [pt], ?_, hp, ?_⟩
                · show d.points ++ [pt] = p :: (ps ++ [pt])
                  rw [hpts]
                  rfl
                · intro q hq
                  rcases List.mem_append.mp hq with hq | hq
                  · exact hps q hq
                  · rw [List.mem_singleton.mp hq]
                    exact hty
            · refine List.pairwise_append.mpr
                ⟨hpw.1, List.pairwise_singleton _ _, ?_⟩
              intro a ha b hb
              rw [List.mem_singleton.mp hb]
              exact hpw.2.2 a ha d (List.mem_singleton.mpr rfl)
            · simp [mongoLoadAllPoints_append, mongoLoadAllPoints, fileStep,
                hpts]

theorem mongo_file_sim (ops : List DrawOp) :
    ∀ docs : List StrokeDoc, MongoInv docs → seqOk docs ops = true →
      MongoInv (runMongo docs ops) ∧
        mongoLoadAllPoints (runMongo docs ops) =
          runFile (mongoLoadAllPoints docs) ops := by
  induction ops with
  | nil =>
      intro docs h _
      exact ⟨h, rfl⟩
  | cons op ops ih =>
      intro docs h hok
      simp only [seqOk, Bool.and_eq_true] at hok
      obtain ⟨hkeyInv, hkeyFlat⟩ := mongo_step_sim docs op h hok.1
      have hmain := ih (mongoStep docs op) hkeyInv hok.2
      refine ⟨hmain.1, ?_⟩
      show mongoLoadAllPoints (runMongo (mongoStep docs op) ops) =
        runFile (fileStep (mongoLoadAllPoints docs) op) ops
      rw [hmain.2, hkeyFlat]

/-- C2 (amended): under non-interleaved traffic — every `start` point opens
a stroke id not currently stored and every continuation point extends the
most recently created stroke — any identical sequence of append, clear and
undo operations leaves the two backends with the same flattened point
sequence: the database `loadAll` (documents in creation order, points in
push order) equals the file backend's log. -/
theorem backend_equivalence (ops : List DrawOp) (h : seqOk [] ops = true) :
    mongoLoadAllPoints (runMongo [] ops) = runFile [] ops := by
  have hsim := mongo_file_sim ops []
    ⟨fun d hd => absurd hd (List.not_mem_nil d), List.Pairwise.nil⟩ h
  exact hsim.2

theorem backend_equivalence_witness :
    seqOk [] [DrawOp.append ptStart, DrawOp.append ptDraw, DrawOp.undo] =
      true ∧
    mongoLoadAllPoints (runMongo []
        [DrawOp.append ptStart, DrawOp.append ptDraw, DrawOp.undo]) =
      runFile [] [DrawOp.append ptStart, DrawOp.append ptDraw, DrawOp.undo] :=
  ⟨by decide,
   backend_equivalence [DrawOp.append ptStart, DrawOp.append ptDraw,
     DrawOp.undo] (by decide)⟩

/-- A second stroke's `start` point, interleaved into the first stroke. -/
def ptStart2 : Point := ⟨1, 1, "start", "#ff0000", 5, "s2"⟩

/-- C2 counterexample to the unrestricted claim: with two interleaved
strokes — start s1, start s2, then a continuation of s1 — the database
backend flattens the log as s1's points followed by s2's, while the file
backend keeps arrival order, so the two `loadAll` results differ. -/
theorem backend_equivalence_cex :
    mongoLoadAllPoints (runMongo []
        [DrawOp.append ptStart, DrawOp.append ptStart2,
          DrawOp.append ptDraw]) ≠
      runFile []
        [DrawOp.append ptStart, DrawOp.append ptStart2,
          DrawOp.append ptDraw] := by
  decide

/-! ### Snapshot application under the database backend -/

/-- The `applySnapshot` handler's database branch (src/unnamed/part_000
lines 338-343): clear the room's documents, then append every payload point
under the single stroke id "snapshot". -/
def applySnapDocs (l : List Point) : List StrokeDoc :=
  l.foldl (fun docs pt => mongoAppendPoint docs "snapshot" pt) []

theorem applySnapDocs_loop (l acc : List Point) :
    l.foldl (fun docs pt => mongoAppendPoint docs "snapshot" pt)
        [⟨"snapshot", acc⟩] = [⟨"snapshot", acc ++ l⟩] := by
  induction l generalizing acc with
  | nil => simp
  | cons pt l ih =>
      show l.foldl _ (mongoAppendPoint [⟨"snapshot", acc⟩] "snapshot" pt) = _
      have hstep : mongoAppendPoint [⟨"snapshot", acc⟩] "snapshot" pt =
          [⟨"snapshot", acc ++ [pt]⟩] := by
        simp [mongoAppendPoint]
      rw [hstep, ih]
      simp

/-- C10: the database-backend applySnapshot stores the whole applied
sequence as one stroke document with id "snapshot", so one subsequent undo
(deleting the most recent stroke document) leaves the room's history
empty — even when the payload held many logical strokes. -/
theorem apply_snapshot_single_doc (l : List Point) :
    (l ≠ [] → applySnapDocs l = [⟨"snapshot", l⟩]) ∧
    mongoLoadAllPoints (mongoUndoDocs (applySnapDocs l)) = [] := by
  cases l with
  | nil => exact ⟨fun h => absurd rfl h, rfl⟩
  | cons pt l =>
      have hfold : applySnapDocs (pt :: l) = [⟨"snapshot", pt :: l⟩] := by
        show l.foldl _ (mongoAppendPoint [] "snapshot" pt) = _
        have h0 : mongoAppendPoint [] "snapshot" pt =
            [⟨"snapshot", [pt]⟩] := rfl
        rw [h0, applySnapDocs_loop]
        rfl
      refine ⟨fun _ => hfold, ?_⟩
      rw [hfold]
      rfl

theorem apply_snapshot_single_doc_witness :
    ([ptStart, ptDraw, ptStart2] : List Point) ≠ [] ∧
    applySnapDocs [ptStart, ptDraw, ptStart2] =
      [⟨"snapshot", [ptStart, ptDraw, ptStart2]⟩] ∧
    mongoLoadAllPoints
      (mongoUndoDocs (applySnapDocs [ptStart, ptDraw, ptStart2])) = [] :=
  ⟨by decide,
   (apply_snapshot_single_doc [ptStart, ptDraw, ptStart2]).1 (by decide),
   (apply_snapshot_single_doc [ptStart, ptDraw, ptStart2]).2⟩

/-! ### Storage failure semantics -/

/-- What a file read can find: no file, a file whose read or JSON parse
throws, or well-formed content. -/
inductive FileRead (α : Type) where
  | absent
  | corrupt
  | good (a : α)
deriving DecidableEq

/-- `loadStrokes` over raw file outcomes: the `existsSync` guard maps a
missing file to `[]`, and the surrounding try/catch maps a read or parse
failure to `[]` as well. -/
def loadStrokesR : FileRead (List Point) → List Point
  | .absent => []
  | .corrupt => []
  | .good l => l

/-- `saveStrokes` with a possibly failing write: the try/catch turns a
failed write into a logged no-op, leaving the file as it was. -/
def saveStrokesR (ok : Bool) (cur : FileRead (List Point)) (l : List Point) :
    FileRead (List Point) :=
  if ok then .good l else cur

def appendStrokeR (ok : Bool) (cur : FileRead (List Point)) (pt : Point) :
    FileRead (List Point) :=
  saveStrokesR ok cur (loadStrokesR cur ++ [pt])

def removeLastStrokeR (ok : Bool) (cur : FileRead (List Point)) :
    FileRead (List Point) × List Point :=
  let r := removeLastStrokePure (loadStrokesR cur)
  (saveStrokesR ok cur r, r)

/-- `loadSnapshotFile` over raw outcomes: the `existsSync` guard returns
null for a missing file, but the `JSON.parse(readFileSync(...))` call has
no try/catch, so an unreadable or unparseable file throws. -/
def loadSnapshotR : FileRead SnapDoc → Except Unit (Option (List Point))
  | .absent => .ok none
  | .corrupt => .error ()
  | .good d => .ok (some d.data)

/-- `listSnapshotsFile` over the room's snapshot files: each file is parsed
with no try/catch, so the first unreadable or unparseable file aborts the
whole listing with an exception. -/
def listSnapshotsR :
    List (FileRead SnapDoc) → Except Unit (List (String × String × Nat))
  | [] => .ok []
  | .good d :: fs =>
      match listSnapshotsR fs with
      | .ok ms => .ok ((d.room, d.name, d.createdAt) :: ms)
      | .error e => .error e
  | .absent :: _ => .error ()
  | .corrupt :: _ => .error ()

/-- `saveSnapshotFile`'s write: `fs.writeFileSync` is not wrapped in
try/catch, so a write failure throws to the caller. -/
def saveSnapshotR (ok : Bool) (room name : String) (d : List Point)
    (nowMs : Nat) : Except Unit SnapDoc :=
  if ok then .ok ⟨room, name, d, nowMs⟩ else .error ()

/-- C8 (amended): the log-path operations (loadAll, append, clear, undo —
all through `loadStrokes`/`saveStrokes`, whose try/catch swallows failures)
degrade to empty reads and no-op writes without raising; the snapshot
operations do not catch their own I/O — a corrupt snapshot file makes
loadSnapshot and listSnapshots throw, and a failed write makes saveSnapshot
throw, the exception being handled only by the surrounding REST handler. -/
theorem storage_failure_semantics (l d : List Point) (pt : Point)
    (cur : FileRead (List Point)) (room name : String) (nowMs : Nat) :
    loadStrokesR .corrupt = [] ∧
    loadStrokesR .absent = [] ∧
    loadStrokesR (.good l) = l ∧
    saveStrokesR false cur l = cur ∧
    appendStrokeR false .corrupt pt = .corrupt ∧
    (removeLastStrokeR false .corrupt).2 = [] ∧
    loadSnapshotR .corrupt = .error () ∧
    listSnapshotsR [.corrupt] = .error () ∧
    saveSnapshotR false room name d nowMs = .error () :=
  ⟨rfl, rfl, rfl, rfl, rfl, rfl, rfl, rfl, rfl⟩

/-- C8 counterexample to the claim as stated: a snapshot read on an
unparseable file errors instead of degrading to a missing result, a
snapshot listing over an unparseable file errors instead of degrading, and
a failed snapshot write errors instead of becoming a logged no-op. -/
theorem storage_failure_semantics_cex :
    loadSnapshotR FileRead.corrupt = Except.error () ∧
    loadSnapshotR FileRead.corrupt ≠ Except.ok none ∧
    listSnapshotsR [FileRead.corrupt] = Except.error () ∧
    saveSnapshotR false "r" "n" [] 0 = Except.error () :=
  ⟨rfl, fun h => Except.noConfusion h, rfl, rfl⟩
